import Mathlib

/-!
Verification of the message-queue subsystem of the repository.

Two implementations are embedded:

* `MessageQueue` — the bounded, joinable blocking queue of
  `src/message_queue.py` (the spec's BoundedQueue / JoinableQueue).
  Its fields mirror `_capacity` (a Python int, default 64), `_queue`
  (a deque) and `_unfinished_tasks` (a Python int).  All operations run
  under one lock, so each completed operation is an atomic step; an
  operation whose predicate fails blocks (in the embedding: it is not
  enabled, and a run treats it as not completing, leaving the state
  unchanged).

* `GrowableQueue` — the resizable array queue of `src/threading_test.py`
  (there also called `MessageQueue`; renamed here because Lean cannot
  hold two top-level types of one name).  Its fields mirror `_capacity`
  (initially 8), `_message_queue` (a Python list of `int | None` slots),
  `_read_pos` and `_append_pos`.
-/

/-- State of `MessageQueue` from `src/message_queue.py`: `_capacity`,
`_queue` and `_unfinished_tasks`.  The capacity is a Python `int`
(possibly negative), hence `Int`; the counter can go negative, hence
`Int`. -/
structure MessageQueue where
  capacity : Int
  queue : List Int
  unfinishedTasks : Int
deriving Repr, DecidableEq

/-- `MessageQueue.__init__(self, capacity: int = 64)`: stores the capacity
verbatim (no validation, no clamping) and starts with an empty deque and a
zero task counter. -/
def MessageQueue.init (capacity : Int) : MessageQueue :=
  { capacity := capacity, queue := [], unfinishedTasks := 0 }

/-- The default value of the `capacity` parameter of
`MessageQueue.__init__` is 64. -/
def MessageQueue.defaultCapacity : Int := 64

/-- The guard of `put`: the wait loop `while len(self._queue) >= self._capacity`
exits (and the append proceeds) exactly when `len(queue) < capacity`. -/
def MessageQueue.putReady (s : MessageQueue) : Bool :=
  decide ((s.queue.length : Int) < s.capacity)

/-- The body of `put` once its wait loop has exited: append the item and
increment `_unfinished_tasks` (all under the lock). -/
def MessageQueue.putAction (s : MessageQueue) (item : Int) : MessageQueue :=
  { s with queue := s.queue ++ [item], unfinishedTasks := s.unfinishedTasks + 1 }

/-- The guard of `get`: the wait loop `while not self._queue` exits exactly
when the deque is nonempty. -/
def MessageQueue.getReady (s : MessageQueue) : Bool :=
  !s.queue.isEmpty

/-- The body of `get` once its wait loop has exited: `popleft` the front
item and return it.  `none` means the deque was empty, i.e. the call would
still be blocked. -/
def MessageQueue.getAction (s : MessageQueue) : Option (Int × MessageQueue) :=
  match s.queue with
  | [] => none
  | x :: rest => some (x, { s with queue := rest })

/-- `task_done`: decrement `_unfinished_tasks` unconditionally — the source
has no guard against the counter going negative. -/
def MessageQueue.taskDoneAction (s : MessageQueue) : MessageQueue :=
  { s with unfinishedTasks := s.unfinishedTasks - 1 }

/-- The guard of `join`: `while self._unfinished_tasks != 0: wait()` —
`join` returns exactly when the counter is zero. -/
def MessageQueue.joinReturns (s : MessageQueue) : Bool :=
  decide (s.unfinishedTasks = 0)

/-- One completed operation on a `MessageQueue`, as observed between lock
acquisitions. -/
inductive MQOp where
  | put (item : Int)
  | get
  | taskDone
deriving Repr, DecidableEq

/-- One step of an interleaved run.  A `put` on a full queue or a `get` on
an empty queue blocks, so it does not complete: the observable state is
unchanged and no item is delivered. -/
def MessageQueue.step (s : MessageQueue) : MQOp → MessageQueue × Option Int
  | .put x => if s.putReady then (s.putAction x, none) else (s, none)
  | .get =>
    match s.getAction with
    | none => (s, none)
    | some (x, s') => (s', some x)
  | .taskDone => (s.taskDoneAction, none)

/-- Run a sequence of operations, collecting the items returned by the
`get` calls in order. -/
def MessageQueue.run (s : MessageQueue) : List MQOp → MessageQueue × List Int
  | [] => (s, [])
  | op :: ops =>
    let p := s.step op
    let q := MessageQueue.run p.1 ops
    (q.1, p.2.toList ++ q.2)

/-- A run is valid when every operation is enabled at the instant it
executes: no step of the trace was a blocked (hence incomplete) call. -/
def MessageQueue.validRun (s : MessageQueue) : List MQOp → Bool
  | [] => true
  | op :: ops =>
    (match op with
     | .put _ => s.putReady
     | .get => s.getReady
     | .taskDone => true) && MessageQueue.validRun (s.step op).1 ops

/-- The items passed to the `put` calls of a trace, in order. -/
def MQOp.putItems : List MQOp → List Int
  | [] => []
  | .put x :: ops => x :: MQOp.putItems ops
  | _ :: ops => MQOp.putItems ops

/-- The number of `taskDone` calls in a trace. -/
def MQOp.taskDoneCount : List MQOp → Nat
  | [] => 0
  | .taskDone :: ops => MQOp.taskDoneCount ops + 1
  | _ :: ops => MQOp.taskDoneCount ops

/-- State of the `MessageQueue` class of `src/threading_test.py` (the
spec's GrowableQueue; renamed because the bounded queue already carries
the source name).  Fields mirror `_capacity`, `_message_queue` (a Python
list of `int | None` slots, modelled as `List (Option Int)`), `_read_pos`
and `_append_pos`.  The positions are only ever incremented or reset to
zero, so `Nat` is faithful.  `use_locks` only selects whether
`check_has_item` holds the read lock and does not affect any field, so it
is not part of the state. -/
structure GrowableQueue where
  capacity : Nat
  messageQueue : List (Option Int)
  readPos : Nat
  appendPos : Nat
deriving Repr, DecidableEq

/-- `__init__`: capacity is hard-coded to 8 (it is not a constructor
parameter), the buffer is `[None] * 8`, both positions start at 0. -/
def GrowableQueue.init : GrowableQueue :=
  { capacity := 8, messageQueue := List.replicate 8 none, readPos := 0, appendPos := 0 }

/-- `__len__`: `self._append_pos - self._read_pos`. -/
def GrowableQueue.len (s : GrowableQueue) : Nat :=
  s.appendPos - s.readPos

/-- `_all_items`: the slice `self._message_queue[self._read_pos : self._append_pos]`. -/
def GrowableQueue.allItems (s : GrowableQueue) : List (Option Int) :=
  (s.messageQueue.drop s.readPos).take (s.appendPos - s.readPos)

/-- The common body of `_shrink_capacity` and `_expand_capacity`: set
`_capacity` to `newCap`, allocate `[None] * newCap`, overwrite its prefix
`[: len(self)]` with `_all_items` (Python slice assignment: the result is
`_all_items` followed by the untouched tail of the fresh buffer), then set
`_read_pos, _append_pos = 0, len(self)` where `len(self)` still uses the
old positions. -/
def GrowableQueue.resize (s : GrowableQueue) (newCap : Nat) : GrowableQueue :=
  { capacity := newCap,
    messageQueue := s.allItems ++ (List.replicate newCap (none : Option Int)).drop s.len,
    readPos := 0,
    appendPos := s.len }

/-- `_shrink_capacity`: `self._capacity //= 2` then rebuild the buffer. -/
def GrowableQueue.shrinkCapacity (s : GrowableQueue) : GrowableQueue :=
  s.resize (s.capacity / 2)

/-- `_expand_capacity`: `self._capacity *= 2` then rebuild the buffer. -/
def GrowableQueue.expandCapacity (s : GrowableQueue) : GrowableQueue :=
  s.resize (s.capacity * 2)

/-- `_append` (the body of `add_item`): expand when `_append_pos ==
_capacity`, then write the item at `_append_pos` and increment
`_append_pos`. -/
def GrowableQueue.append (s : GrowableQueue) (item : Int) : GrowableQueue :=
  let s1 := if s.appendPos = s.capacity then s.expandCapacity else s
  { s1 with
    messageQueue := s1.messageQueue.set s1.appendPos (some item),
    appendPos := s1.appendPos + 1 }

/-- `add_item`: takes the write lock and calls `_append`. -/
def GrowableQueue.addItem (s : GrowableQueue) (item : Int) : GrowableQueue :=
  s.append item

/-- The possible outcomes of `_popleft` / `next_item`. -/
inductive PopError where
  | emptyQueue
  | assertionFailed
deriving Repr, DecidableEq

/-- `_popleft` (the body of `next_item`): raise `IndexError` when
`_read_pos == _append_pos` (the state is untouched on this path); shrink
first when `_capacity > 8` and `len(self) <= _capacity // 2`; then read
`_message_queue[_read_pos]`, assert it is not `None`, increment
`_read_pos` and return it. -/
def GrowableQueue.popleft (s : GrowableQueue) : Except PopError (Int × GrowableQueue) :=
  if s.readPos = s.appendPos then
    .error .emptyQueue
  else
    let s1 := if 8 < s.capacity ∧ s.len ≤ s.capacity / 2 then s.shrinkCapacity else s
    match s1.messageQueue.getD s1.readPos none with
    | none => .error .assertionFailed
    | some result => .ok (result, { s1 with readPos := s1.readPos + 1 })

/-- `next_item`: delegates to `_popleft`. -/
def GrowableQueue.nextItem (s : GrowableQueue) : Except PopError (Int × GrowableQueue) :=
  s.popleft

/-- One completed operation on a `GrowableQueue`. -/
inductive GQOp where
  | add (item : Int)
  | next
deriving Repr, DecidableEq

/-- One step of a run.  `add_item` always completes; `next_item` on an
empty queue raises, which the consumer catches — the state is unchanged
and no item is delivered. -/
def GrowableQueue.step (s : GrowableQueue) : GQOp → GrowableQueue × Option Int
  | .add x => (s.addItem x, none)
  | .next =>
    match s.nextItem with
    | .error _ => (s, none)
    | .ok (x, s') => (s', some x)

/-- Run a sequence of operations, collecting the items returned by
successful `next_item` calls in order. -/
def GrowableQueue.run (s : GrowableQueue) : List GQOp → GrowableQueue × List Int
  | [] => (s, [])
  | op :: ops =>
    let p := s.step op
    let q := GrowableQueue.run p.1 ops
    (q.1, p.2.toList ++ q.2)

/-- The structural invariant of `GrowableQueue`:
positions ordered and in range, the buffer exactly fills the capacity,
the capacity is 8 times a power of two, and every slot of the live window
holds an item (so the `assert result is not None` never fires). -/
def GrowableQueue.Inv (s : GrowableQueue) : Prop :=
  s.readPos ≤ s.appendPos ∧ s.appendPos ≤ s.capacity ∧
  s.messageQueue.length = s.capacity ∧
  (∃ k : Nat, s.capacity = 8 * 2 ^ k) ∧
  ∀ x ∈ s.allItems, x ≠ none

/-! ### Basic lemmas on `MessageQueue` runs -/

theorem MessageQueue.step_capacity (s : MessageQueue) (op : MQOp) :
    (s.step op).1.capacity = s.capacity := by
  cases op with
  | put x =>
      by_cases h : s.putReady
      · simp [step, h, putAction]
      · simp [step, h]
  | get =>
      cases hq : s.queue with
      | nil => simp [step, getAction, hq]
      | cons y rest => simp [step, getAction, hq]
  | taskDone => rfl

theorem MessageQueue.run_capacity (ops : List MQOp) :
    ∀ s : MessageQueue, (MessageQueue.run s ops).1.capacity = s.capacity := by
  induction ops with
  | nil => intro s; rfl
  | cons op ops ih =>
      intro s
      show (MessageQueue.run (s.step op).1 ops).1.capacity = s.capacity
      rw [ih, MessageQueue.step_capacity]

theorem MessageQueue.step_len_le (s : MessageQueue) (op : MQOp)
    (h : (s.queue.length : Int) ≤ s.capacity) :
    ((s.step op).1.queue.length : Int) ≤ (s.step op).1.capacity := by
  cases op with
  | put x =>
      by_cases hr : s.putReady
      · have hlt : (s.queue.length : Int) < s.capacity := by
          simpa [putReady] using hr
        simp only [step, hr, if_true, putAction]
        simp only [List.length_append, List.length_cons, List.length_nil]
        push_cast
        omega
      · simpa [step, hr] using h
  | get =>
      cases hq : s.queue with
      | nil => simpa [step, getAction, hq, hq ▸ h] using h
      | cons y rest =>
          have h2 := hq ▸ h
          simp only [List.length_cons] at h2
          simp [step, getAction, hq]
          omega
  | taskDone => simpa [step, taskDoneAction] using h

theorem MessageQueue.run_len_le (ops : List MQOp) :
    ∀ s : MessageQueue, (s.queue.length : Int) ≤ s.capacity →
    ((MessageQueue.run s ops).1.queue.length : Int) ≤ (MessageQueue.run s ops).1.capacity := by
  induction ops with
  | nil => intro s h; exact h
  | cons op ops ih =>
      intro s h
      exact ih (s.step op).1 (s.step_len_le op h)

theorem MessageQueue.run_append (a b : List MQOp) :
    ∀ s : MessageQueue,
    MessageQueue.run s (a ++ b) =
      ((MessageQueue.run (MessageQueue.run s a).1 b).1,
       (MessageQueue.run s a).2 ++ (MessageQueue.run (MessageQueue.run s a).1 b).2) := by
  induction a with
  | nil => intro s; simp [MessageQueue.run]
  | cons op a ih =>
      intro s
      show MessageQueue.run s (op :: (a ++ b)) = _
      simp only [MessageQueue.run]
      rw [ih (s.step op).1]
      simp [MessageQueue.run, List.append_assoc]

theorem MessageQueue.run_puts (n : Nat) (x : Int) :
    ∀ s : MessageQueue, (s.queue.length + n : Int) ≤ s.capacity →
    (MessageQueue.run s (List.replicate n (MQOp.put x))).1.capacity = s.capacity ∧
    (MessageQueue.run s (List.replicate n (MQOp.put x))).1.queue = s.queue ++ List.replicate n x ∧
    (MessageQueue.run s (List.replicate n (MQOp.put x))).1.unfinishedTasks
      = s.unfinishedTasks + n := by
  induction n with
  | zero => intro s _; simp [MessageQueue.run]
  | succ n ih =>
      intro s h
      have hready : s.putReady = true := by
        simp only [putReady, decide_eq_true_eq]
        omega
      have hstep : (s.step (MQOp.put x)).1 = s.putAction x := by
        simp [step, hready]
      simp only [List.replicate_succ, MessageQueue.run, hstep]
      have hlen : ((s.putAction x).queue.length + n : Int) ≤ (s.putAction x).capacity := by
        simp only [putAction, List.length_append, List.length_cons, List.length_nil]
        push_cast
        omega
      obtain ⟨h1, h2, h3⟩ := ih (s.putAction x) hlen
      refine ⟨by simpa [putAction] using h1, ?_, ?_⟩
      · rw [h2]
        simp [putAction, List.replicate_succ]
      · rw [h3]
        simp only [putAction]
        push_cast
        omega

theorem MessageQueue.run_taskDones (m : Nat) :
    ∀ s : MessageQueue,
    (MessageQueue.run s (List.replicate m MQOp.taskDone)).1.capacity = s.capacity ∧
    (MessageQueue.run s (List.replicate m MQOp.taskDone)).1.queue = s.queue ∧
    (MessageQueue.run s (List.replicate m MQOp.taskDone)).1.unfinishedTasks
      = s.unfinishedTasks - m := by
  induction m with
  | zero => intro s; simp [MessageQueue.run]
  | succ m ih =>
      intro s
      simp only [List.replicate_succ, MessageQueue.run]
      have hstep : (s.step MQOp.taskDone).1 = s.taskDoneAction := rfl
      rw [hstep]
      obtain ⟨h1, h2, h3⟩ := ih s.taskDoneAction
      refine ⟨by simpa [taskDoneAction] using h1, by simpa [taskDoneAction] using h2, ?_⟩
      rw [h3]
      simp only [taskDoneAction]
      push_cast
      omega

theorem MessageQueue.run_append_fst (a b : List MQOp) (s : MessageQueue) :
    (MessageQueue.run s (a ++ b)).1 = (MessageQueue.run (MessageQueue.run s a).1 b).1 := by
  rw [MessageQueue.run_append]

theorem MessageQueue.validRun_fifo (ops : List MQOp) :
    ∀ s : MessageQueue, s.validRun ops = true →
    (MessageQueue.run s ops).2 ++ (MessageQueue.run s ops).1.queue
      = s.queue ++ MQOp.putItems ops := by
  induction ops with
  | nil => intro s _; simp [MessageQueue.run, MQOp.putItems]
  | cons op ops ih =>
      intro s hv
      cases op with
      | put x =>
          simp only [MessageQueue.validRun, Bool.and_eq_true] at hv
          obtain ⟨hen', hrest⟩ := hv
          have hstep : s.step (MQOp.put x) = (s.putAction x, none) := by
            simp [MessageQueue.step, hen']
          rw [hstep] at hrest
          simp only [MessageQueue.run, hstep, Option.toList, List.nil_append]
          rw [ih (s.putAction x) hrest]
          simp [MessageQueue.putAction, MQOp.putItems]
      | get =>
          simp only [MessageQueue.validRun, Bool.and_eq_true] at hv
          obtain ⟨hen', hrest⟩ := hv
          cases hq : s.queue with
          | nil => simp [MessageQueue.getReady, hq] at hen'
          | cons y rest =>
              have hstep : s.step MQOp.get = ({ s with queue := rest }, some y) := by
                simp [MessageQueue.step, MessageQueue.getAction, hq]
              rw [hstep] at hrest
              simp only [MessageQueue.run, hstep, Option.toList]
              rw [List.cons_append, List.nil_append, List.cons_append,
                ih { s with queue := rest } hrest]
              simp [MQOp.putItems, hq]
      | taskDone =>
          simp only [MessageQueue.validRun, Bool.and_eq_true, true_and] at hv
          have hstep : s.step MQOp.taskDone = (s.taskDoneAction, none) := rfl
          rw [hstep] at hv
          simp only [MessageQueue.run, hstep, Option.toList, List.nil_append]
          rw [ih s.taskDoneAction hv]
          simp [MessageQueue.taskDoneAction, MQOp.putItems]

/-! ### Claim theorems about the bounded / joinable queue -/

/-- C1, counterexample: the claim says a capacity ≤ 0 raises an error at
construction.  It does not: `MessageQueue.__init__` is a straight-line
field assignment with no validation and no error path — `MessageQueue.init`
is its whole body.  Constructing with capacity 0 (or −3) succeeds and
stores the invalid capacity verbatim; `put` on the capacity-0 queue merely
blocks forever (`putReady` is false). -/
theorem capacity_validation_cex :
    MessageQueue.init 0 = { capacity := 0, queue := [], unfinishedTasks := 0 } ∧
    (MessageQueue.init (-3)).capacity = -3 ∧
    (MessageQueue.init 0).putReady = false := by
  decide

/-- C1, amended: construction performs no validation at all — any integer
capacity is stored unchanged (never clamped, never rejected), the default
capacity of `MessageQueue` is 64, and the growable queue's initial
capacity is the hard-coded constant 8 (it is not a constructor
parameter). -/
theorem capacity_validation_amended :
    (∀ c : Int, MessageQueue.init c = { capacity := c, queue := [], unfinishedTasks := 0 }) ∧
    MessageQueue.defaultCapacity = 64 ∧
    GrowableQueue.init.capacity = 8 :=
  ⟨fun _ => rfl, rfl, rfl⟩

/-- C2: capacity invariant of the bounded queue.  For every capacity
`c > 0` and every interleaved sequence of put/get/taskDone operations,
the number of resident items after the run satisfies `0 ≤ len ≤ c`
(every prefix of a trace is itself a trace, so this covers every
observable instant).  `put` appends only after its wait loop observes
`len < capacity`, all under the single lock. -/
theorem bounded_capacity_invariant (c : Int) (hc : 0 < c) (ops : List MQOp) :
    0 ≤ ((MessageQueue.run (MessageQueue.init c) ops).1.queue.length : Int) ∧
    ((MessageQueue.run (MessageQueue.init c) ops).1.queue.length : Int) ≤ c := by
  refine ⟨Int.natCast_nonneg _, ?_⟩
  have h := MessageQueue.run_len_le ops (MessageQueue.init c)
    (by simp only [MessageQueue.init]; simp; omega)
  rw [MessageQueue.run_capacity] at h
  simpa [MessageQueue.init] using h

-- Witness for C2 at c = 2 with a trace that tries to overfill the queue.
theorem bounded_capacity_invariant_witness :
    0 ≤ ((MessageQueue.run (MessageQueue.init 2)
        [MQOp.put 1, MQOp.put 2, MQOp.put 3]).1.queue.length : Int) ∧
    ((MessageQueue.run (MessageQueue.init 2)
        [MQOp.put 1, MQOp.put 2, MQOp.put 3]).1.queue.length : Int) ≤ 2 :=
  bounded_capacity_invariant 2 (by decide) [MQOp.put 1, MQOp.put 2, MQOp.put 3]

/-- C3: join barrier.  `join()` returns exactly when `_unfinished_tasks`
is zero; after `n` puts (each within capacity) and `m < n` taskDones the
counter is `n − m ≠ 0` so `join` stays blocked, and after the `n`-th
taskDone it returns. -/
theorem join_barrier (c : Int) (n m : Nat) (hn : (n : Int) ≤ c) :
    (∀ s : MessageQueue, s.joinReturns = true ↔ s.unfinishedTasks = 0) ∧
    (m < n → (MessageQueue.run (MessageQueue.init c)
        (List.replicate n (MQOp.put 0) ++ List.replicate m MQOp.taskDone)).1.joinReturns
        = false) ∧
    (MessageQueue.run (MessageQueue.init c)
        (List.replicate n (MQOp.put 0) ++ List.replicate n MQOp.taskDone)).1.joinReturns
        = true := by
  have key : ∀ m' : Nat, (MessageQueue.run (MessageQueue.init c)
      (List.replicate n (MQOp.put 0) ++ List.replicate m' MQOp.taskDone)).1.unfinishedTasks
      = (n : Int) - m' := by
    intro m'
    rw [MessageQueue.run_append_fst]
    have h1 := MessageQueue.run_puts n 0 (MessageQueue.init c)
      (by simp only [MessageQueue.init]; simp; omega)
    have h2 := MessageQueue.run_taskDones m'
      (MessageQueue.run (MessageQueue.init c) (List.replicate n (MQOp.put 0))).1
    rw [h2.2.2, h1.2.2]
    simp only [MessageQueue.init]
    omega
  refine ⟨fun s => by simp [MessageQueue.joinReturns], ?_, ?_⟩
  · intro hm
    simp only [MessageQueue.joinReturns, key m, decide_eq_false_iff_not]
    omega
  · simp only [MessageQueue.joinReturns, key n, decide_eq_true_eq]
    omega

-- Witness for C3: five puts, four taskDones (join blocked), then five
-- (join returns).
theorem join_barrier_witness :
    (MessageQueue.run (MessageQueue.init 64)
        (List.replicate 5 (MQOp.put 0) ++ List.replicate 4 MQOp.taskDone)).1.joinReturns
        = false ∧
    (MessageQueue.run (MessageQueue.init 64)
        (List.replicate 5 (MQOp.put 0) ++ List.replicate 5 MQOp.taskDone)).1.joinReturns
        = true :=
  ⟨(join_barrier 64 5 4 (by decide)).2.1 (by decide),
   (join_barrier 64 5 4 (by decide)).2.2⟩

/-- C7, counterexample: the claim says `_unfinished_tasks` is always ≥ 0.
It is not: `task_done` decrements with no guard, so a single `task_done`
on a fresh queue drives the counter to −1. -/
theorem join_counter_cex :
    (MessageQueue.run (MessageQueue.init 64) [MQOp.taskDone]).1.unfinishedTasks = -1 ∧
    ¬ 0 ≤ (MessageQueue.run (MessageQueue.init 64) [MQOp.taskDone]).1.unfinishedTasks := by
  decide

/-- C7, amended: `_unfinished_tasks` is incremented by exactly one on
every successful (non-blocked) `put` and decremented by exactly one on
every `task_done`; the decrement is unguarded, so a `task_done` without a
matching prior `put` drives the counter negative (e.g. to −1 on a fresh
queue) rather than being rejected. -/
theorem join_counter_amended :
    (∀ (s : MessageQueue) (x : Int),
        (s.step (MQOp.put x)).1.unfinishedTasks =
          if s.putReady then s.unfinishedTasks + 1 else s.unfinishedTasks) ∧
    (∀ s : MessageQueue, (s.step MQOp.taskDone).1.unfinishedTasks = s.unfinishedTasks - 1) ∧
    (MessageQueue.run (MessageQueue.init 64) [MQOp.taskDone]).1.unfinishedTasks = -1 := by
  refine ⟨?_, fun s => rfl, by decide⟩
  intro s x
  by_cases h : s.putReady <;> simp [MessageQueue.step, h, MessageQueue.putAction]

/-- C8: FIFO property.  For every valid trace (each operation enabled at
its instant — in particular any single-producer/single-consumer
schedule), the items returned by the `get` calls, followed by the items
still resident, equal the items passed to the `put` calls in order; when
the queue has been drained the consumed sequence equals the produced
sequence exactly. -/
theorem fifo_property (c : Int) (ops : List MQOp)
    (hvalid : MessageQueue.validRun (MessageQueue.init c) ops = true) :
    (MessageQueue.run (MessageQueue.init c) ops).2
        ++ (MessageQueue.run (MessageQueue.init c) ops).1.queue = MQOp.putItems ops ∧
    ((MessageQueue.run (MessageQueue.init c) ops).1.queue = [] →
      (MessageQueue.run (MessageQueue.init c) ops).2 = MQOp.putItems ops) := by
  have h := MessageQueue.validRun_fifo ops (MessageQueue.init c) hvalid
  have hq : (MessageQueue.init c).queue = [] := rfl
  rw [hq, List.nil_append] at h
  exact ⟨h, fun hd => by simpa [hd] using h⟩

-- Witness for C8: one producer puts 1 then 2; one consumer gets both.
theorem fifo_property_witness :
    (MessageQueue.run (MessageQueue.init 2)
        [MQOp.put 1, MQOp.put 2, MQOp.get, MQOp.get]).2
      = MQOp.putItems [MQOp.put 1, MQOp.put 2, MQOp.get, MQOp.get] :=
  (fifo_property 2 [MQOp.put 1, MQOp.put 2, MQOp.get, MQOp.get] (by decide)).2 (by decide)

/-! ### Lemmas on the growable queue -/

theorem GrowableQueue.allItems_length (s : GrowableQueue)
    (h1 : s.readPos ≤ s.appendPos) (h2 : s.appendPos ≤ s.messageQueue.length) :
    s.allItems.length = s.appendPos - s.readPos := by
  simp only [GrowableQueue.allItems, List.length_take, List.length_drop]
  omega

/-- What `resize` does when the live window fits in the new buffer:
capacity and buffer length become `newCap`, the window is copied to the
front (`readPos = 0`, `appendPos = len`), and the logical contents are
unchanged. -/
theorem GrowableQueue.resize_spec (s : GrowableQueue) (newCap : Nat)
    (h1 : s.readPos ≤ s.appendPos) (h2 : s.appendPos ≤ s.messageQueue.length)
    (h3 : s.len ≤ newCap) :
    (s.resize newCap).capacity = newCap ∧
    (s.resize newCap).readPos = 0 ∧
    (s.resize newCap).appendPos = s.len ∧
    (s.resize newCap).messageQueue.length = newCap ∧
    (s.resize newCap).allItems = s.allItems ∧
    (s.resize newCap).messageQueue.take s.len = s.allItems := by
  have hlen : s.allItems.length = s.len := s.allItems_length h1 h2
  have htake : (s.allItems ++ (List.replicate newCap (none : Option Int)).drop s.len).take s.len
      = s.allItems := by
    conv_lhs => rw [← hlen]
    exact List.take_left _ _
  refine ⟨rfl, rfl, rfl, ?_, ?_, htake⟩
  · show (s.allItems ++ (List.replicate newCap (none : Option Int)).drop s.len).length = newCap
    rw [List.length_append, hlen, List.length_drop, List.length_replicate]
    omega
  · show ((s.allItems ++ (List.replicate newCap (none : Option Int)).drop s.len).drop 0).take
        (s.len - 0) = s.allItems
    rw [List.drop_zero, Nat.sub_zero]
    exact htake

/-- Writing at the append position extends the live window by exactly the
written slot. -/
theorem GrowableQueue.window_set_take (buf : List (Option Int)) (r a : Nat) (v : Option Int)
    (hra : r ≤ a) (ha : a < buf.length) :
    ((buf.set a v).drop r).take (a + 1 - r)
      = (buf.drop r).take (a - r) ++ [v] := by
  apply List.ext_getElem
  · rw [List.length_take, List.length_drop, List.length_set, List.length_append,
      List.length_take, List.length_drop, List.length_cons, List.length_nil]
    omega
  · intro n hL hR
    rw [List.getElem_take, List.getElem_drop, List.getElem_set]
    by_cases hn : n < a - r
    · rw [List.getElem_append_left (by rw [List.length_take, List.length_drop]; omega)]
      rw [List.getElem_take, List.getElem_drop, if_neg (by omega)]
    · have hlen : ((buf.drop r).take (a - r)).length = a - r := by
        rw [List.length_take, List.length_drop]; omega
      have hn' : n = a - r := by
        rw [List.length_append, hlen, List.length_cons, List.length_nil] at hR
        omega
      rw [List.getElem_append_right (by rw [hlen]; omega)]
      rw [if_pos (by omega)]
      simp [hlen, hn']

/-- Decompose a nonempty live window into its front slot and the rest. -/
theorem GrowableQueue.allItems_cons (s : GrowableQueue)
    (hlt : s.readPos < s.appendPos) (hle : s.appendPos ≤ s.messageQueue.length) :
    s.allItems = s.messageQueue.getD s.readPos none ::
      (s.messageQueue.drop (s.readPos + 1)).take (s.appendPos - (s.readPos + 1)) := by
  have hr : s.readPos < s.messageQueue.length := by omega
  show (s.messageQueue.drop s.readPos).take (s.appendPos - s.readPos) = _
  rw [List.drop_eq_getElem_cons hr]
  have hsub : s.appendPos - s.readPos = (s.appendPos - (s.readPos + 1)) + 1 := by omega
  rw [hsub, List.take_succ_cons, List.getD_eq_getElem _ _ hr]

theorem GrowableQueue.cap_pos (s : GrowableQueue) (hk : ∃ k, s.capacity = 8 * 2 ^ k) :
    8 ≤ s.capacity := by
  obtain ⟨k, hk⟩ := hk
  have h1 : 1 ≤ 2 ^ k := Nat.one_le_two_pow
  omega

theorem GrowableQueue.cap_half (k : Nat) (hk : 0 < k) :
    (8 * 2 ^ k) / 2 = 8 * 2 ^ (k - 1) := by
  obtain ⟨j, rfl⟩ : ∃ j, k = j + 1 := ⟨k - 1, by omega⟩
  have h : 8 * 2 ^ (j + 1) = (8 * 2 ^ j) * 2 := by ring
  rw [h, Nat.mul_div_cancel _ (by norm_num)]
  simp

/-- `_append` preserves the invariant, extends the logical contents by
exactly the new item, and — exactly when the buffer was full — doubles the
capacity and compacts the window to the front before writing. -/
theorem GrowableQueue.append_spec (s : GrowableQueue) (x : Int) (hInv : s.Inv) :
    (s.append x).Inv ∧
    (s.append x).allItems = s.allItems ++ [some x] ∧
    (s.append x).capacity = (if s.appendPos = s.capacity then s.capacity * 2 else s.capacity) ∧
    (s.append x).readPos = (if s.appendPos = s.capacity then 0 else s.readPos) ∧
    (s.append x).appendPos
      = (if s.appendPos = s.capacity then s.len + 1 else s.appendPos + 1) := by
  obtain ⟨h1, h2, h3, ⟨k, hk⟩, h5⟩ := hInv
  have hcap8 : 8 ≤ s.capacity := s.cap_pos ⟨k, hk⟩
  have hlen_cap : s.len ≤ s.capacity := by unfold GrowableQueue.len; omega
  by_cases hfull : s.appendPos = s.capacity
  · have hres := s.resize_spec (s.capacity * 2) h1 (by omega) (by omega)
    obtain ⟨hc, hr, ha, hl, hitems, htake⟩ := hres
    have hexp : s.expandCapacity = s.resize (s.capacity * 2) := rfl
    have happ : s.append x =
        { capacity := (s.resize (s.capacity * 2)).capacity,
          messageQueue := (s.resize (s.capacity * 2)).messageQueue.set
            (s.resize (s.capacity * 2)).appendPos (some x),
          readPos := (s.resize (s.capacity * 2)).readPos,
          appendPos := (s.resize (s.capacity * 2)).appendPos + 1 } := by
      simp only [GrowableQueue.append, if_pos hfull, hexp]
    have hwin := GrowableQueue.window_set_take (s.resize (s.capacity * 2)).messageQueue
      (s.resize (s.capacity * 2)).readPos (s.resize (s.capacity * 2)).appendPos (some x)
      (by rw [hr]; omega) (by rw [ha, hl]; omega)
    have hitems' : (s.append x).allItems = s.allItems ++ [some x] := by
      rw [happ]
      show ((((s.resize (s.capacity * 2)).messageQueue.set
          (s.resize (s.capacity * 2)).appendPos (some x)).drop
            (s.resize (s.capacity * 2)).readPos).take
              ((s.resize (s.capacity * 2)).appendPos + 1
                - (s.resize (s.capacity * 2)).readPos)) = s.allItems ++ [some x]
      rw [hwin, ← hitems]
      rfl
    refine ⟨⟨?_, ?_, ?_, ⟨k + 1, ?_⟩, ?_⟩, hitems', ?_, ?_, ?_⟩
    · rw [happ]; simp only; rw [hr, ha]; omega
    · rw [happ]; simp only; rw [hc, ha]; omega
    · rw [happ]; simp only; rw [List.length_set, hl, hc]
    · rw [happ]; simp only; rw [hc, hk]; ring
    · intro y hy
      rw [hitems'] at hy
      rcases List.mem_append.1 hy with hy | hy
      · exact h5 y hy
      · simp only [List.mem_singleton] at hy
        rw [hy]
        exact Option.some_ne_none x
    · rw [happ, if_pos hfull]; simp only; rw [hc]
    · rw [happ, if_pos hfull]; simp only; rw [hr]
    · rw [happ, if_pos hfull]; simp only; rw [ha]
  · have hroom : s.appendPos < s.capacity := by omega
    have happ : s.append x =
        { capacity := s.capacity,
          messageQueue := s.messageQueue.set s.appendPos (some x),
          readPos := s.readPos,
          appendPos := s.appendPos + 1 } := by
      simp only [GrowableQueue.append, if_neg hfull]
    have hwin := GrowableQueue.window_set_take s.messageQueue s.readPos s.appendPos (some x)
      h1 (by omega)
    have hitems' : (s.append x).allItems = s.allItems ++ [some x] := by
      rw [happ]
      show ((s.messageQueue.set s.appendPos (some x)).drop s.readPos).take
          (s.appendPos + 1 - s.readPos) = s.allItems ++ [some x]
      rw [hwin]
      rfl
    refine ⟨⟨?_, ?_, ?_, ⟨k, ?_⟩, ?_⟩, hitems', ?_, ?_, ?_⟩
    · rw [happ]; simp only; omega
    · rw [happ]; simp only; omega
    · rw [happ]; simp only; rw [List.length_set, h3]
    · rw [happ]; exact hk
    · intro y hy
      rw [hitems'] at hy
      rcases List.mem_append.1 hy with hy | hy
      · exact h5 y hy
      · simp only [List.mem_singleton] at hy
        rw [hy]
        exact Option.some_ne_none x
    · rw [happ, if_neg hfull]
    · rw [happ, if_neg hfull]
    · rw [happ, if_neg hfull]

/-- `_popleft` on a state satisfying the invariant: it raises exactly on an
empty window (before touching any field), otherwise it shrinks exactly when
`capacity > 8` and `len <= capacity // 2`, returns the item in the front
slot of the pre-call buffer, and removes it from the logical contents. -/
theorem GrowableQueue.popleft_spec (s : GrowableQueue) (hInv : s.Inv) :
    (s.readPos = s.appendPos → s.popleft = Except.error PopError.emptyQueue) ∧
    (s.readPos ≠ s.appendPos → ∃ x s2, s.popleft = Except.ok (x, s2) ∧
      s.messageQueue.getD s.readPos none = some x ∧
      s.allItems = some x :: s2.allItems ∧
      s2.Inv ∧
      s2.capacity = (if 8 < s.capacity ∧ s.len ≤ s.capacity / 2
        then s.capacity / 2 else s.capacity) ∧
      s2.readPos = (if 8 < s.capacity ∧ s.len ≤ s.capacity / 2
        then 0 else s.readPos) + 1) := by
  obtain ⟨h1, h2, h3, ⟨k, hk⟩, h5⟩ := hInv
  refine ⟨fun he => by simp [GrowableQueue.popleft, he], fun hne => ?_⟩
  have hlt : s.readPos < s.appendPos := by omega
  have hconsS := s.allItems_cons hlt (by omega)
  by_cases hsh : 8 < s.capacity ∧ s.len ≤ s.capacity / 2
  · have hres := s.resize_spec (s.capacity / 2) h1 (by omega) hsh.2
    have hc : s.shrinkCapacity.capacity = s.capacity / 2 := hres.1
    have hr : s.shrinkCapacity.readPos = 0 := hres.2.1
    have ha : s.shrinkCapacity.appendPos = s.len := hres.2.2.1
    have hl : s.shrinkCapacity.messageQueue.length = s.capacity / 2 := hres.2.2.2.1
    have hitems1 : s.shrinkCapacity.allItems = s.allItems := hres.2.2.2.2.1
    have hlen_pos : 0 < s.len := by unfold GrowableQueue.len; omega
    have hlt1 : s.shrinkCapacity.readPos < s.shrinkCapacity.appendPos := by
      rw [hr, ha]; omega
    have hle1 : s.shrinkCapacity.appendPos ≤ s.shrinkCapacity.messageQueue.length := by
      rw [ha, hl]; exact hsh.2
    have hcons := s.shrinkCapacity.allItems_cons hlt1 hle1
    cases hget : s.shrinkCapacity.messageQueue.getD s.shrinkCapacity.readPos none with
    | none =>
        exfalso
        have hmem : s.shrinkCapacity.messageQueue.getD s.shrinkCapacity.readPos none
            ∈ s.allItems := by
          rw [← hitems1, hcons]; exact List.mem_cons_self _ _
        have hnn := h5 _ hmem
        rw [hget] at hnn
        exact hnn rfl
    | some x =>
        have hpop : s.popleft = Except.ok
            (x, { s.shrinkCapacity with readPos := s.shrinkCapacity.readPos + 1 }) := by
          simp only [GrowableQueue.popleft, if_neg hne, if_pos hsh]
          rw [hget]
        have hSitems : s.allItems = some x ::
            ({ s.shrinkCapacity with
               readPos := s.shrinkCapacity.readPos + 1 } : GrowableQueue).allItems := by
          rw [← hitems1, hcons, hget]
          rfl
        have hgetS : s.messageQueue.getD s.readPos none = some x := by
          have hh := hconsS.symm.trans hSitems
          simp only [List.cons.injEq] at hh
          exact hh.1
        have hk1 : 0 < k := by
          rcases Nat.eq_zero_or_pos k with h0 | h0
          · rw [h0] at hk; simp at hk; omega
          · exact h0
        refine ⟨x, _, hpop, hgetS, hSitems, ⟨?_, ?_, ?_, ⟨k - 1, ?_⟩, ?_⟩, ?_, ?_⟩
        · show s.shrinkCapacity.readPos + 1 ≤ s.shrinkCapacity.appendPos
          omega
        · show s.shrinkCapacity.appendPos ≤ s.shrinkCapacity.capacity
          rw [ha, hc]; exact hsh.2
        · show s.shrinkCapacity.messageQueue.length = s.shrinkCapacity.capacity
          rw [hl, hc]
        · show s.shrinkCapacity.capacity = 8 * 2 ^ (k - 1)
          rw [hc, hk]
          exact GrowableQueue.cap_half k hk1
        · intro y hy
          apply h5
          rw [hSitems]
          exact List.mem_cons_of_mem _ hy
        · show s.shrinkCapacity.capacity = _
          rw [if_pos hsh, hc]
        · show s.shrinkCapacity.readPos + 1 = _
          rw [if_pos hsh, hr]
  · have hcons := hconsS
    cases hget : s.messageQueue.getD s.readPos none with
    | none =>
        exfalso
        have hmem : s.messageQueue.getD s.readPos none ∈ s.allItems := by
          rw [hcons]; exact List.mem_cons_self _ _
        have hnn := h5 _ hmem
        rw [hget] at hnn
        exact hnn rfl
    | some x =>
        have hpop : s.popleft = Except.ok (x, { s with readPos := s.readPos + 1 }) := by
          simp only [GrowableQueue.popleft, if_neg hne, if_neg hsh]
          rw [hget]
        have hSitems : s.allItems = some x ::
            ({ s with readPos := s.readPos + 1 } : GrowableQueue).allItems := by
          rw [hcons, hget]
          rfl
        refine ⟨x, _, hpop, rfl, hSitems, ⟨?_, ?_, ?_, ⟨k, hk⟩, ?_⟩, ?_, ?_⟩
        · show s.readPos + 1 ≤ s.appendPos
          omega
        · exact h2
        · exact h3
        · intro y hy
          apply h5
          rw [hSitems]
          exact List.mem_cons_of_mem _ hy
        · show s.capacity = _
          rw [if_neg hsh]
        · show s.readPos + 1 = _
          rw [if_neg hsh]

theorem GrowableQueue.inv_init : GrowableQueue.init.Inv :=
  ⟨Nat.le_refl 0, by norm_num [GrowableQueue.init], by simp [GrowableQueue.init],
   ⟨0, rfl⟩, by simp [GrowableQueue.allItems, GrowableQueue.init]⟩

theorem GrowableQueue.inv_step (s : GrowableQueue) (op : GQOp) (hInv : s.Inv) :
    ((s.step op).1).Inv := by
  cases op with
  | add x => exact (s.append_spec x hInv).1
  | next =>
      by_cases hne : s.readPos = s.appendPos
      · have herr := (s.popleft_spec hInv).1 hne
        have hs : (s.step GQOp.next).1 = s := by
          simp [GrowableQueue.step, GrowableQueue.nextItem, herr]
        rw [hs]
        exact hInv
      · obtain ⟨x, s2, hok, _, _, hinv2, _, _⟩ := (s.popleft_spec hInv).2 hne
        have hs : (s.step GQOp.next).1 = s2 := by
          simp [GrowableQueue.step, GrowableQueue.nextItem, hok]
        rw [hs]
        exact hinv2

theorem GrowableQueue.inv_run (ops : List GQOp) :
    ∀ s : GrowableQueue, s.Inv → ((GrowableQueue.run s ops).1).Inv := by
  induction ops with
  | nil => intro s h; exact h
  | cons op ops ih => intro s h; exact ih (s.step op).1 (s.inv_step op h)

/-! ### Claim theorems about the growable queue -/

/-- C4: grow behavior of `add_item`.  When `_append_pos == _capacity`,
adding doubles the capacity, copies the live window to the front of a
fresh buffer (`take len` of the expanded buffer is exactly the old
window), resets `_read_pos` to 0, writes the item and leaves
`_append_pos = len + 1`; in every case the logical contents gain exactly
the new item at the back; and adding capacity + 1 = 9 items to a fresh
queue doubles the capacity exactly once (it is still 8 after 8 adds and
16 after the 9th). -/
theorem add_item_grow (s : GrowableQueue) (x : Int) (hInv : s.Inv) :
    (s.addItem x).allItems = s.allItems ++ [some x] ∧
    (s.appendPos = s.capacity →
      (s.addItem x).capacity = s.capacity * 2 ∧
      s.expandCapacity.capacity = s.capacity * 2 ∧
      s.expandCapacity.messageQueue.take s.len = s.allItems ∧
      s.expandCapacity.readPos = 0 ∧
      (s.addItem x).readPos = 0 ∧
      (s.addItem x).appendPos = s.len + 1) ∧
    ((GrowableQueue.run GrowableQueue.init
        (List.replicate 8 (GQOp.add 0))).1.capacity = 8 ∧
     (GrowableQueue.run GrowableQueue.init
        (List.replicate 9 (GQOp.add 0))).1.capacity = 16) := by
  obtain ⟨hInv2, hitems, hcap, hread, happend⟩ := s.append_spec x hInv
  refine ⟨hitems, fun hfull => ?_, by decide⟩
  obtain ⟨h1, h2, h3, hk4, h5⟩ := hInv
  have hres := s.resize_spec (s.capacity * 2) h1 (by omega)
    (by unfold GrowableQueue.len; omega)
  refine ⟨?_, ?_, ?_, ?_, ?_, ?_⟩
  · show (s.append x).capacity = s.capacity * 2
    rw [hcap, if_pos hfull]
  · show (s.resize (s.capacity * 2)).capacity = s.capacity * 2
    exact hres.1
  · show (s.resize (s.capacity * 2)).messageQueue.take s.len = s.allItems
    exact hres.2.2.2.2.2
  · show (s.resize (s.capacity * 2)).readPos = 0
    exact hres.2.1
  · show (s.append x).readPos = 0
    rw [hread, if_pos hfull]
  · show (s.append x).appendPos = s.len + 1
    rw [happend, if_pos hfull]

-- Witness for C4 at the full state reached by 8 adds on a fresh queue.
theorem add_item_grow_witness :
    ((GrowableQueue.run GrowableQueue.init
        (List.replicate 8 (GQOp.add 0))).1.addItem 5).capacity = 16 ∧
    ((GrowableQueue.run GrowableQueue.init
        (List.replicate 8 (GQOp.add 0))).1.addItem 5).allItems
      = (GrowableQueue.run GrowableQueue.init
          (List.replicate 8 (GQOp.add 0))).1.allItems ++ [some 5] := by
  have h := add_item_grow (GrowableQueue.run GrowableQueue.init
      (List.replicate 8 (GQOp.add 0))).1 5
    (GrowableQueue.inv_run _ _ GrowableQueue.inv_init)
  refine ⟨?_, h.1⟩
  have h2 := (h.2.1 (by decide)).1
  rw [h2]
  decide

/-- C5: `next_item` error condition.  On an invariant-satisfying state it
fails — with the EmptyQueue condition (`IndexError`), raised before any
field is touched, so the state is unchanged — exactly when
`_read_pos == _append_pos` at the moment of the call; otherwise it returns
the item in the front slot `_message_queue[_read_pos]` of the pre-call
buffer, the logical contents lose exactly their head, and `_read_pos` is
incremented (from 0 when the call first shrank the buffer). -/
theorem next_item_spec (s : GrowableQueue) (hInv : s.Inv) :
    (s.nextItem = Except.error PopError.emptyQueue ↔ s.readPos = s.appendPos) ∧
    (s.readPos ≠ s.appendPos → ∃ x s2, s.nextItem = Except.ok (x, s2) ∧
      s.messageQueue.getD s.readPos none = some x ∧
      s2.allItems = s.allItems.drop 1 ∧
      s2.readPos = (if 8 < s.capacity ∧ s.len ≤ s.capacity / 2
        then 0 else s.readPos) + 1) := by
  have h := s.popleft_spec hInv
  constructor
  · constructor
    · intro herr
      by_contra hne
      obtain ⟨x, s2, hok, _⟩ := h.2 hne
      have herr2 : s.popleft = Except.error PopError.emptyQueue := herr
      rw [hok] at herr2
      simp at herr2
    · exact h.1
  · intro hne
    obtain ⟨x, s2, hok, hget, hcons, _, _, hread⟩ := h.2 hne
    refine ⟨x, s2, hok, hget, ?_, hread⟩
    rw [hcons]
    rfl

-- Witness for C5 at the one-element queue reached by a single add.
theorem next_item_spec_witness :
    ∃ x s2, (GrowableQueue.init.addItem 7).nextItem = Except.ok (x, s2) ∧
      (GrowableQueue.init.addItem 7).messageQueue.getD
        (GrowableQueue.init.addItem 7).readPos none = some x ∧
      s2.allItems = (GrowableQueue.init.addItem 7).allItems.drop 1 ∧
      s2.readPos = (if 8 < (GrowableQueue.init.addItem 7).capacity ∧
          (GrowableQueue.init.addItem 7).len ≤ (GrowableQueue.init.addItem 7).capacity / 2
        then 0 else (GrowableQueue.init.addItem 7).readPos) + 1 :=
  (next_item_spec (GrowableQueue.init.addItem 7)
    (GrowableQueue.append_spec GrowableQueue.init 7 GrowableQueue.inv_init).1).2 (by decide)

/-- C6: shrink behavior of a pop.  A successful pop halves the capacity
(and compacts the window to the front) exactly when the logical length is
at most half the capacity and the capacity exceeds the floor 8, and in
every case removes exactly the head of the logical contents; concretely,
after 9 adds (capacity 16) the first pop (length 9) does not shrink, the
second pop (length 8 ≤ 16/2) halves the capacity to 8 — exactly one
halving — and popping everything returns all nine items in insertion
order across both resizes. -/
theorem shrink_on_pop (s : GrowableQueue) (hInv : s.Inv) (hne : s.readPos ≠ s.appendPos) :
    (∃ x s2, s.popleft = Except.ok (x, s2) ∧
      s2.capacity = (if 8 < s.capacity ∧ s.len ≤ s.capacity / 2
        then s.capacity / 2 else s.capacity) ∧
      s.allItems = some x :: s2.allItems) ∧
    (GrowableQueue.run GrowableQueue.init
        (List.replicate 9 (GQOp.add 0) ++ [GQOp.next])).1.capacity = 16 ∧
    (GrowableQueue.run GrowableQueue.init
        (List.replicate 9 (GQOp.add 0) ++ [GQOp.next, GQOp.next])).1.capacity = 8 ∧
    (GrowableQueue.run GrowableQueue.init
        ((List.range 9).map (fun i => GQOp.add i) ++ List.replicate 9 GQOp.next)).2
      = [0, 1, 2, 3, 4, 5, 6, 7, 8] := by
  obtain ⟨x, s2, hok, _, hcons, _, hcap, _⟩ := (s.popleft_spec hInv).2 hne
  exact ⟨⟨x, s2, hok, hcap, hcons⟩, by decide, by decide, by decide⟩

-- Witness for C6 at the capacity-16, length-8 state reached by 9 adds and
-- one pop: the next pop shrinks to 8.
theorem shrink_on_pop_witness :
    ∃ x s2, ((GrowableQueue.run GrowableQueue.init
        (List.replicate 9 (GQOp.add 0) ++ [GQOp.next])).1).popleft = Except.ok (x, s2) ∧
      s2.capacity = (if 8 < (GrowableQueue.run GrowableQueue.init
            (List.replicate 9 (GQOp.add 0) ++ [GQOp.next])).1.capacity ∧
          (GrowableQueue.run GrowableQueue.init
            (List.replicate 9 (GQOp.add 0) ++ [GQOp.next])).1.len
            ≤ (GrowableQueue.run GrowableQueue.init
                (List.replicate 9 (GQOp.add 0) ++ [GQOp.next])).1.capacity / 2
        then (GrowableQueue.run GrowableQueue.init
            (List.replicate 9 (GQOp.add 0) ++ [GQOp.next])).1.capacity / 2
        else (GrowableQueue.run GrowableQueue.init
            (List.replicate 9 (GQOp.add 0) ++ [GQOp.next])).1.capacity) ∧
      (GrowableQueue.run GrowableQueue.init
          (List.replicate 9 (GQOp.add 0) ++ [GQOp.next])).1.allItems
        = some x :: s2.allItems :=
  (shrink_on_pop (GrowableQueue.run GrowableQueue.init
      (List.replicate 9 (GQOp.add 0) ++ [GQOp.next])).1
    (GrowableQueue.inv_run _ _ GrowableQueue.inv_init) (by decide)).1

/-- C9: position invariant of the growable queue.  After every sequence of
add/next operations on a fresh queue (and hence at every observable
instant, since prefixes of traces are traces), the positions satisfy
`0 ≤ readPos ≤ appendPos ≤ capacity`, and `__len__` reports exactly
`appendPos - readPos`. -/
theorem growable_position_invariant (ops : List GQOp) :
    0 ≤ (GrowableQueue.run GrowableQueue.init ops).1.readPos ∧
    (GrowableQueue.run GrowableQueue.init ops).1.readPos
      ≤ (GrowableQueue.run GrowableQueue.init ops).1.appendPos ∧
    (GrowableQueue.run GrowableQueue.init ops).1.appendPos
      ≤ (GrowableQueue.run GrowableQueue.init ops).1.capacity ∧
    (GrowableQueue.run GrowableQueue.init ops).1.len
      = (GrowableQueue.run GrowableQueue.init ops).1.appendPos
        - (GrowableQueue.run GrowableQueue.init ops).1.readPos := by
  have h := GrowableQueue.inv_run ops GrowableQueue.init GrowableQueue.inv_init
  exact ⟨Nat.zero_le _, h.1, h.2.1, rfl⟩

/-- C10: implicit capacity invariant of the growable queue.  After every
sequence of add/next operations on a fresh queue the capacity is
`8 * 2 ^ k` for some `k ≥ 0` — the initial capacity is 8, grow exactly
doubles, shrink halves only when the capacity exceeds 8 — and in
particular the capacity never drops below 8. -/
theorem growable_capacity_power (ops : List GQOp) :
    (∃ k : Nat, (GrowableQueue.run GrowableQueue.init ops).1.capacity = 8 * 2 ^ k) ∧
    8 ≤ (GrowableQueue.run GrowableQueue.init ops).1.capacity := by
  have h := GrowableQueue.inv_run ops GrowableQueue.init GrowableQueue.inv_init
  exact ⟨h.2.2.2.1, GrowableQueue.cap_pos _ h.2.2.2.1⟩
